import Mathlib

/-!
Verification of code2docx (src/code2docx/cli.py).

Strings are modelled as `List Char`.  The segmenter of
`add_colored_code_block`, the color classifier `token_color`, the binary
probe `is_text_file`, the gallery layout of `add_screenshots_section` and
the directory filtering of `main` are embedded as executable Lean
functions, and the spec claims are settled against them.
-/

namespace Code2Docx

/-- A modelled Python string: a list of characters. -/
abbrev Str := List Char

/-- The characters Python `str.splitlines` treats as line boundaries:
LF, CR, VT, FF, FS, GS, RS, NEL, LINE SEPARATOR, PARAGRAPH SEPARATOR. -/
def isLineBreak (c : Char) : Bool :=
  c = '\n' || c = '\r' || c.val = 11 || c.val = 12 || c.val = 28 ||
  c.val = 29 || c.val = 30 || c.val = 133 || c.val = 0x2028 || c.val = 0x2029

/-- Concatenation of the lists produced by `f` over a list (our own
`concatMap`, kept local so the development is self-contained). -/
def concatMap (f : α → List β) : List α → List β
  | [] => []
  | a :: as => f a ++ concatMap f as

/-- `value.replace("\t", " " * 4)` from `add_colored_code_block`:
every tab becomes four spaces, all other characters are kept. -/
def expandTabs (s : Str) : Str :=
  concatMap (fun c => if c = '\t' then [' ', ' ', ' ', ' '] else [c]) s

/-- Worker for `str.splitlines(keepends=True)`.  `acc` holds the
characters of the current part in reverse.  A `"\r\n"` pair is one
terminator; every other line-break character is a terminator by itself;
terminators stay attached to the part they end. -/
def slAux (s acc : Str) : List Str :=
  match s with
  | [] => if acc.isEmpty then [] else [acc.reverse]
  | c :: rest =>
    if c = '\r' ∧ rest.head? = some '\n' then
      (acc.reverse ++ [c, '\n']) :: slAux rest.tail []
    else if isLineBreak c then (acc.reverse ++ [c]) :: slAux rest []
    else slAux rest (c :: acc)
termination_by s.length
decreasing_by
  all_goals simp [List.length_tail]
  all_goals omega

/-- `value.splitlines(keepends=True)` from `add_colored_code_block`. -/
def splitlines (s : Str) : List Str := slAux s []

/-- `small.isPrefixOf big` on character lists, written out. -/
def listPre : Str → Str → Bool
  | [], _ => true
  | _ :: _, [] => false
  | a :: as, b :: bs => a = b && listPre as bs

/-- `s.endswith(suf)`: `suf` reversed is a front segment of `s` reversed. -/
def endsWithS (suf s : Str) : Bool := listPre suf.reverse s.reverse

/-- `part.rstrip("\r\n")`: remove every trailing CR or LF character. -/
def rstripRN (s : Str) : Str :=
  (s.reverse.dropWhile (fun c => c = '\r' || c = '\n')).reverse

/-- A token as handed to the segmenter: Pygments token type
(rendered to a string) and raw text. -/
abbrev Tok := String × Str

/-- A span: token category plus a text fragment of one visual line. -/
abbrev Span := String × Str

/-- A line: the ordered spans of one visual line. -/
abbrev Line := List Span

/-- Segmenter state: the closed lines so far, and the open line. -/
abbrev SegState := List Line × Line

/-- The `part.endswith("\n") or part.endswith("\r\n")` test of
`add_colored_code_block`. -/
def isNLPart (p : Str) : Bool := endsWithS ['\n'] p || endsWithS ['\r', '\n'] p

/-- The per-part body of the segmenter loop in `add_colored_code_block`
(cli.py lines 102-110): a part ending in a newline closes the current
line, first appending the marker-stripped text when it is non-empty; any
other non-empty part is appended to the open line. -/
def procPart (cat : String) (st : SegState) (part : Str) : SegState :=
  if isNLPart part then
    let tp := rstripRN part
    let cur := if tp = [] then st.2 else st.2 ++ [(cat, tp)]
    (st.1 ++ [cur], [])
  else
    if part = [] then st else (st.1, st.2 ++ [(cat, part)])

/-- The per-token body of the segmenter loop (cli.py lines 99-110):
expand tabs, split keeping terminators, then fold the parts. -/
def procToken (st : SegState) (t : Tok) : SegState :=
  (splitlines (expandTabs t.2)).foldl (procPart t.1) st

/-- The value of `lines` after the token loop of
`add_colored_code_block`: all closed lines followed by the open one
(the loop starts from `lines = [[]]`). -/
def rawLines (toks : List Tok) : List Line :=
  let st := toks.foldl procToken ([], [])
  st.1 ++ [st.2]

/-- The full segmenter of `add_colored_code_block`: the token loop, the
`if len(lines) > 1 and lines[-1] == []: lines.pop()` step, and the
`lines or [[]]` guard of the rendering loop. -/
def segment (toks : List Tok) : List Line :=
  let L := rawLines toks
  let L2 := if 1 < L.length ∧ L.getLast? = some [] then L.dropLast else L
  if L2 = [] then [[]] else L2

/-- Text of a line: its span texts concatenated. -/
def lineText (l : Line) : Str := concatMap (fun sp => sp.2) l

/-- Join the line texts with a single newline between consecutive lines. -/
def joinN : List Line → Str
  | [] => []
  | [l] => lineText l
  | l :: l2 :: ls => lineText l ++ '\n' :: joinN (l2 :: ls)

/-- Concatenation of all token texts of a stream. -/
def concatTexts (toks : List Tok) : Str := concatMap (fun t => t.2) toks

/-- "With at most one trailing newline removed", read off the claim: drop
a final LF when there is one, otherwise keep the text unchanged. -/
def dropOneTrailingNL (s : Str) : Str :=
  if endsWithS ['\n'] s then s.dropLast else s

/-- A string with no line-break character at all. -/
def noBreak (s : Str) : Prop := ∀ c ∈ s, isLineBreak c = false

instance decNoBreak (s : Str) : Decidable (noBreak s) :=
  decidable_of_iff (∀ c ∈ s, isLineBreak c = false) Iff.rfl

/-- Shape of every part produced by `splitlines`: a break-free body
followed by an LF, by a CRLF, by a single non-LF break character, or no
terminator at all (only possible for the final part). -/
def PartShape (p : Str) : Prop :=
  (∃ body, noBreak body ∧ p = body ++ ['\n']) ∨
  (∃ body, noBreak body ∧ p = body ++ ['\r', '\n']) ∨
  (∃ body c, noBreak body ∧ isLineBreak c = true ∧ c ≠ '\n' ∧ p = body ++ [c]) ∨
  noBreak p

/-- Shape of every `splitlines` part of an input containing no CRLF
pair: a break-free body terminated by an LF, by a single non-LF break
character (which the segmenter keeps inside the span), or not at all. -/
def OkPart (p : Str) : Prop :=
  (∃ body, noBreak body ∧ p = body ++ ['\n']) ∨
  (∃ body c, noBreak body ∧ isLineBreak c = true ∧ c ≠ '\n' ∧ p = body ++ [c]) ∨
  noBreak p

/-- Invariant of every span the segmenter emits: non-empty text with no
LF character in it. -/
def SpanOK (sp : Span) : Prop := sp.2 ≠ [] ∧ '\n' ∉ sp.2

/-- All spans of all lines satisfy `SpanOK`. -/
def LinesOK (ls : List Line) : Prop := ∀ l ∈ ls, ∀ sp ∈ l, SpanOK sp

/-- All spans of the closed lines and of the open line satisfy `SpanOK`. -/
def StateOK (st : SegState) : Prop :=
  LinesOK st.1 ∧ ∀ sp ∈ st.2, SpanOK sp

/-- The text reproduced by state `st`: its lines joined by newlines,
with the open line last. -/
def joinState (st : SegState) : Str := joinN (st.1 ++ [st.2])

/-- The single span a break-free token contributes after tab expansion
(`none` when the expanded text is empty, since empty parts add no span). -/
def deriveSpan (t : Tok) : Option Span :=
  if expandTabs t.2 = [] then none else some (t.1, expandTabs t.2)

/-- The Darcula token color table `TOKEN_COLOR_MAP` of cli.py (lines
29-43) as an ordered association list; the order is Python's dict
insertion order, which `for key in TOKEN_COLOR_MAP` follows. -/
def TOKEN_COLOR_MAP : List (Str × Str) :=
  [("Comment".toList, "808080".toList),
   ("Keyword".toList, "cc7832".toList),
   ("Name.Function".toList, "ffc66d".toList),
   ("Name.Class".toList, "ffc66d".toList),
   ("Name.Builtin".toList, "a9b7c6".toList),
   ("String".toList, "6a8759".toList),
   ("Number".toList, "6897bb".toList),
   ("Operator".toList, "a9b7c6".toList),
   ("Punctuation".toList, "a9b7c6".toList),
   ("Name".toList, "a9b7c6".toList),
   ("Text".toList, "a9b7c6".toList),
   ("Error".toList, "ff0000".toList),
   ("Literal".toList, "6a8759".toList)]

/-- Python's `key in s` substring test, on character lists. -/
def listSub (needle : Str) : Str → Bool
  | [] => listPre needle []
  | c :: rest => listPre needle (c :: rest) || listSub needle rest

/-- The token text contains no `"\r\n"` pair: Python's `"\r\n" in value`
is false.  This is the exact condition under which the segmenter loses
nothing (a CRLF terminator is the one thing `rstrip` shortens). -/
def noCRLF (s : Str) : Prop := listSub ['\r', '\n'] s = false

instance decNoCRLF (s : Str) : Decidable (noCRLF s) :=
  decidable_of_iff (listSub ['\r', '\n'] s = false) Iff.rfl

/-- `TOKEN_COLOR_MAP[key]`-style dict lookup. -/
def lookupTCM (key : Str) : Option Str :=
  (TOKEN_COLOR_MAP.find? (fun kv => kv.1 == key)).map (fun kv => kv.2)

/-- The priority sub-tags `token_color` checks first (cli.py line 59). -/
def priorityKeys : List Str :=
  ["Name.Function".toList, "Name.Class".toList, "Name.Builtin".toList]

/-- `token_color` (cli.py lines 57-65), with colors represented by their
hex strings; `hex_to_rgb` is injective on the table's values, so color
equality and inequality are preserved by this representation. -/
def tokenColor (s : Str) : Str :=
  match priorityKeys.find? (fun key => listSub key s && (lookupTCM key).isSome) with
  | some key => (lookupTCM key).getD ("a9b7c6".toList)
  | none =>
    match TOKEN_COLOR_MAP.find? (fun kv => listSub kv.1 s) with
    | some kv => kv.2
    | none => (lookupTCM ("Text".toList)).getD []

/-- The lookup policy in the words of the claim: if the category contains
a priority sub-tag, that sub-tag's color; otherwise the color of the
first table entry whose key is a substring of the category, in table
order; otherwise the default plain-text color a9b7c6. -/
def tokenColorSpec (s : Str) : Str :=
  match priorityKeys.find? (fun key => listSub key s) with
  | some key => (lookupTCM key).getD ("a9b7c6".toList)
  | none =>
    match TOKEN_COLOR_MAP.find? (fun kv => listSub kv.1 s) with
    | some kv => kv.2
    | none => "a9b7c6".toList

/-- `is_text_file` (cli.py lines 135-143) on the file's byte content: the
probe reads `blocksize` = 1024 bytes and reports binary exactly when a
zero byte occurs in that chunk. -/
def is_text_file (bytes : List Nat) : Bool :=
  !((bytes.take 1024).contains 0)

/-- One rendered block of the per-file loop of `main` (cli.py 250-270). -/
inductive FileBlock where
  | styledBlock (lines : List Line)
  | rawBlock (content : Str)
  | binaryNotice
  deriving DecidableEq

/-- A file as the renderer sees it: raw bytes for the probe, decoded text,
and the outcome of the styling attempt (`add_colored_code_block` may raise
for external reasons, modelled by `Except`). -/
structure FileEntry where
  bytes : List Nat
  content : Str
  style : Except Unit (List Line)

/-- The per-file branch of `main` (cli.py 250-270): binary files get the
placeholder notice without tokenization; a styling exception on a text
file falls back to the raw content as one unstyled block. -/
def renderFile (f : FileEntry) : FileBlock :=
  if is_text_file f.bytes then
    match f.style with
    | Except.ok L => FileBlock.styledBlock L
    | Except.error _ => FileBlock.rawBlock f.content
  else FileBlock.binaryNotice

/-- The whole per-file loop of `main`: each file yields its own block and
processing always continues to the next file. -/
def processFiles (fs : List FileEntry) : List FileBlock :=
  fs.map renderFile

/-- `num_rows = (len(image_files) + 1) // 2` (cli.py line 187). -/
def numRowsG (n : Nat) : Nat := (n + 1) / 2

/-- The cell of each image: `row_idx = idx // 2`, `col_idx = idx % 2`
(cli.py lines 192-195), in list order. -/
def gridCells (images : List Str) : List (Nat × Nat × Str) :=
  images.enum.map (fun p => (p.1 / 2, p.1 % 2, p.2))

/-- Outcome of `add_screenshots_section` (cli.py 170-213): the
explanatory line, or a two-column grid with captioned cells. -/
inductive Gallery where
  | noImages
  | grid (rows : Nat) (cells : List (Nat × Nat × Str))
  deriving DecidableEq

/-- `add_screenshots_section`'s layout decision (cli.py 183-195). -/
def add_screenshots_section (images : List Str) : Gallery :=
  if images = [] then Gallery.noImages
  else Gallery.grid (numRowsG images.length) (gridCells images)

/-- Whether some image occupies cell (r, c) of the grid. -/
def cellOccupied (cells : List (Nat × Nat × Str)) (r c : Nat) : Bool :=
  cells.any (fun t => t.1 == r && t.2.1 == c)

/-- `name.startswith('.')`. -/
def hiddenName (name : Str) : Bool :=
  match name with
  | [] => false
  | c :: _ => c == '.'

/-- Python `str.lower`, character by character. -/
def lowerChars (s : Str) : Str := s.map Char.toLower

/-- `name.lower().endswith('.docx')` (cli.py lines 177 and 237). -/
def endsWithDocx (name : Str) : Bool :=
  endsWithS (".docx".toList) (lowerChars name)

/-- Helper for `os.path.splitext`: the suffix starting at the last dot,
empty when there is no dot. -/
def lastExt : Str → Str
  | [] => []
  | c :: rest =>
    let e := lastExt rest
    if e.isEmpty then (if c = '.' then c :: rest else []) else e

/-- The extension of `os.path.splitext(name)[1]`: leading dots of the
name are not extension separators. -/
def extOf (name : Str) : Str := lastExt (name.dropWhile (fun c => c = '.'))

/-- `IMAGE_EXTENSIONS` (cli.py line 26). -/
def IMAGE_EXTENSIONS : List Str :=
  [".png".toList, ".jpg".toList, ".jpeg".toList, ".gif".toList,
   ".bmp".toList, ".tiff".toList, ".tif".toList, ".webp".toList]

/-- `is_image_file` (cli.py lines 146-148). -/
def is_image_file (name : Str) : Bool :=
  IMAGE_EXTENSIONS.contains (lowerChars (extOf name))

/-- Python string comparison: code-point lexicographic order. -/
def lexLe (a b : Str) : Bool :=
  match a, b with
  | [], _ => true
  | _ :: _, [] => false
  | c :: cs, d :: ds => if c = d then lexLe cs ds else decide (c.toNat < d.toNat)

/-- Insertion into a `lexLe`-sorted entry list. -/
def insLe (x : Str × Bool) : List (Str × Bool) → List (Str × Bool)
  | [] => [x]
  | y :: ys => if lexLe x.1 y.1 then x :: y :: ys else y :: insLe x ys

/-- `sorted(os.listdir(cwd))`: the directory entries sorted by name.  An
entry carries its name and whether `os.path.isfile` holds for it. -/
def sortEntries : List (Str × Bool) → List (Str × Bool)
  | [] => []
  | e :: es => insLe e (sortEntries es)

/-- The names `main` processes as code files (cli.py 231-250): skip
hidden names, `.docx` names, image names and non-files, keeping sorted
order. -/
def codeFiles (entries : List (Str × Bool)) : List Str :=
  ((sortEntries entries).filter
    (fun e => !hiddenName e.1 && !endsWithDocx e.1 && !is_image_file e.1 && e.2)).map
    (fun e => e.1)

/-- The names `add_screenshots_section` collects for the gallery
(cli.py 171-181): skip hidden and `.docx` names, keep image files,
keeping sorted order. -/
def galleryFiles (entries : List (Str × Bool)) : List Str :=
  ((sortEntries entries).filter
    (fun e => !hiddenName e.1 && !endsWithDocx e.1 && e.2 && is_image_file e.1)).map
    (fun e => e.1)

theorem concatMap_append (f : α → List β) (a b : List α) :
    concatMap f (a ++ b) = concatMap f a ++ concatMap f b := by
  induction a with
  | nil => rfl
  | cons x xs ih => simp [concatMap, ih]

theorem mem_concatMap {f : α → List β} {b : β} {l : List α} :
    b ∈ concatMap f l ↔ ∃ a ∈ l, b ∈ f a := by
  induction l with
  | nil => simp [concatMap]
  | cons x xs ih => simp [concatMap, ih]

theorem expandTabs_append (a b : Str) :
    expandTabs (a ++ b) = expandTabs a ++ expandTabs b :=
  concatMap_append _ a b

theorem mem_expandTabs {c : Char} {s : Str} (h : c ∈ expandTabs s) :
    c = ' ' ∨ c ∈ s := by
  rcases mem_concatMap.1 h with ⟨a, ha, hc⟩
  by_cases hta : a = '\t'
  · subst hta
    simp at hc
    exact Or.inl hc
  · simp [hta] at hc
    exact Or.inr (hc ▸ ha)

theorem noBreak_expandTabs {s : Str} (h : noBreak s) : noBreak (expandTabs s) := by
  intro c hc
  rcases mem_expandTabs hc with h1 | h1
  · subst h1; decide
  · exact h c h1

theorem noCRLF_tail {c : Char} {rest : Str} (h : noCRLF (c :: rest)) :
    noCRLF rest := by
  have h2 : (listPre ['\r', '\n'] (c :: rest) || listSub ['\r', '\n'] rest) =
      false := h
  cases hx : listSub ['\r', '\n'] rest with
  | false => exact hx
  | true =>
    rw [hx, Bool.or_true] at h2
    exact absurd h2 (by simp)

theorem noCRLF_not_crlf_head {c : Char} {rest : Str}
    (h : noCRLF (c :: rest)) : ¬(c = '\r' ∧ rest.head? = some '\n') := by
  rintro ⟨rfl, hh⟩
  cases rest with
  | nil => simp at hh
  | cons d rest2 =>
    simp at hh
    subst hh
    have h2 : listSub ['\r', '\n'] ('\r' :: '\n' :: rest2) = true := by
      simp [listSub, listPre]
    unfold noCRLF at h
    rw [h2] at h
    simp at h

theorem listPre_crlf_cases {c : Char} {E : Str}
    (h : listPre ['\r', '\n'] (c :: E) = true) :
    c = '\r' ∧ E.head? = some '\n' := by
  cases E with
  | nil => simp [listPre] at h
  | cons e es =>
    simp [listPre] at h
    refine ⟨h.1.symm, ?_⟩
    rw [← h.2]
    rfl

theorem head?_expandTabs {s : Str} {x : Char}
    (h : (expandTabs s).head? = some x) (hx : x ≠ ' ') :
    s.head? = some x := by
  cases s with
  | nil => simp [expandTabs, concatMap] at h
  | cons d rest =>
    by_cases hd : d = '\t'
    · subst hd
      have h0 : (expandTabs ('\t' :: rest)).head? = some ' ' := rfl
      rw [h0] at h
      injection h with h
      exact absurd h.symm hx
    · have h0 : expandTabs (d :: rest) = d :: expandTabs rest := by
        simp [expandTabs, concatMap, hd]
      rw [h0] at h
      simp at h
      simp [h]

/-- Tab expansion cannot create a CRLF pair: tabs become spaces and all
other characters keep their relative adjacency. -/
theorem noCRLF_expandTabs {s : Str} (h : noCRLF s) : noCRLF (expandTabs s) := by
  induction s with
  | nil => exact h
  | cons c rest ih =>
    have hexp : listSub ['\r', '\n'] (expandTabs rest) = false :=
      ih (noCRLF_tail h)
    by_cases hc : c = '\t'
    · subst hc
      have h0 : expandTabs ('\t' :: rest) =
          ' ' :: ' ' :: ' ' :: ' ' :: expandTabs rest := rfl
      unfold noCRLF
      rw [h0]
      simp [listSub, listPre, hexp]
    · have h0 : expandTabs (c :: rest) = c :: expandTabs rest := by
        simp [expandTabs, concatMap, hc]
      unfold noCRLF
      rw [h0]
      have hpre : listPre ['\r', '\n'] (c :: expandTabs rest) = false := by
        cases hp : listPre ['\r', '\n'] (c :: expandTabs rest) with
        | false => rfl
        | true =>
          exfalso
          obtain ⟨hcr, hhead⟩ := listPre_crlf_cases hp
          exact noCRLF_not_crlf_head h ⟨hcr, head?_expandTabs hhead (by decide)⟩
      have hstep : listSub ['\r', '\n'] (c :: expandTabs rest) =
          (listPre ['\r', '\n'] (c :: expandTabs rest) ||
            listSub ['\r', '\n'] (expandTabs rest)) := rfl
      rw [hstep, hpre, hexp]
      rfl

theorem noBreak_not_rn {s : Str} (h : noBreak s) :
    ∀ c ∈ s, c ≠ '\r' ∧ c ≠ '\n' := by
  intro c hc
  have := h c hc
  constructor <;> rintro rfl <;> simp [isLineBreak] at this

/-- `endsWithS` on a one-character suffix is a `getLast?` test. -/
theorem endsWithS_single {a : Char} {s : Str} :
    endsWithS [a] s = true ↔ s.getLast? = some a := by
  unfold endsWithS
  rw [List.getLast?_eq_head?_reverse]
  cases s.reverse with
  | nil => simp [listPre]
  | cons b bs => simp [listPre, eq_comm]

theorem isNLPart_iff {p : Str} : isNLPart p = true ↔ p.getLast? = some '\n' := by
  unfold isNLPart
  rw [Bool.or_eq_true, endsWithS_single]
  constructor
  · rintro (h | h)
    · exact h
    · unfold endsWithS at h
      rw [List.getLast?_eq_head?_reverse]
      revert h
      cases p.reverse with
      | nil => simp [listPre]
      | cons b bs => simp [listPre]; intro h _; exact h.symm
  · intro h; exact Or.inl h

theorem dropWhile_append_of_all {pred : Char → Bool} {t : Str} (l : Str)
    (h : ∀ c ∈ t, pred c = true) :
    (t ++ l).dropWhile pred = l.dropWhile pred := by
  induction t with
  | nil => rfl
  | cons c cs ih =>
    have hc : pred c = true := h c (by simp)
    simp only [List.cons_append, List.dropWhile_cons, hc, if_true]
    exact ih (fun x hx => h x (by simp [hx]))

theorem dropWhile_eq_self_of_none {pred : Char → Bool} {l : Str}
    (h : ∀ c ∈ l, pred c = false) : l.dropWhile pred = l := by
  cases l with
  | nil => rfl
  | cons c cs =>
    have hc : pred c = false := h c (by simp)
    simp [List.dropWhile_cons, hc]

/-- Stripping `"\r\n"` from a body followed by a terminator made of CR/LF
characters returns the body, provided the body itself contains no CR/LF. -/
theorem rstripRN_append {body t : Str} (hb : noBreak body)
    (ht : ∀ c ∈ t, c = '\r' ∨ c = '\n') :
    rstripRN (body ++ t) = body := by
  unfold rstripRN
  rw [List.reverse_append]
  rw [dropWhile_append_of_all body.reverse
    (fun c hc => by rcases ht c (List.mem_reverse.1 hc) with h | h <;> simp [h])]
  rw [dropWhile_eq_self_of_none
    (fun c hc => by
      rcases noBreak_not_rn hb c (List.mem_reverse.1 hc) with ⟨h1, h2⟩
      simp [h1, h2])]
  exact List.reverse_reverse body

theorem noBreak_reverse {s : Str} (h : noBreak s) : noBreak s.reverse :=
  fun c hc => h c (List.mem_reverse.1 hc)

theorem noBreak_nil : noBreak [] := by
  intro c hc
  simp at hc

theorem partShape_slAux :
    ∀ s acc, noBreak acc → ∀ p ∈ slAux s acc, PartShape p := by
  intro s acc
  induction s, acc using slAux.induct with
  | case1 acc hemp =>
    intro _ p hp
    rw [slAux, if_pos hemp] at hp
    simp at hp
  | case2 acc hemp =>
    intro hacc p hp
    rw [slAux, if_neg hemp] at hp
    simp at hp
    exact hp ▸ Or.inr (Or.inr (Or.inr (noBreak_reverse hacc)))
  | case3 acc c rest hcond ih =>
    intro hacc p hp
    rw [slAux, if_pos hcond] at hp
    rcases List.mem_cons.1 hp with rfl | hp
    · refine Or.inr (Or.inl ⟨acc.reverse, noBreak_reverse hacc, ?_⟩)
      rw [hcond.1]
    · exact ih noBreak_nil p hp
  | case4 acc c rest hcond hbr ih =>
    intro hacc p hp
    rw [slAux, if_neg hcond, if_pos hbr] at hp
    rcases List.mem_cons.1 hp with rfl | hp
    · by_cases hn : c = '\n'
      · exact Or.inl ⟨acc.reverse, noBreak_reverse hacc, by rw [hn]⟩
      · exact Or.inr (Or.inr (Or.inl
          ⟨acc.reverse, c, noBreak_reverse hacc, hbr, hn, rfl⟩))
    · exact ih noBreak_nil p hp
  | case5 acc c rest hcond hbr ih =>
    intro hacc p hp
    rw [slAux, if_neg hcond, if_neg hbr] at hp
    refine ih ?_ p hp
    intro x hx
    rcases List.mem_cons.1 hx with rfl | hx
    · revert hbr; cases isLineBreak x <;> simp
    · exact hacc x hx

theorem partShape_splitlines {s : Str} :
    ∀ p ∈ splitlines s, PartShape p :=
  partShape_slAux s [] noBreak_nil

theorem okPart_slAux :
    ∀ s acc, noCRLF s → noBreak acc → ∀ p ∈ slAux s acc, OkPart p := by
  intro s acc
  induction s, acc using slAux.induct with
  | case1 acc hemp =>
    intro _ _ p hp
    rw [slAux, if_pos hemp] at hp
    simp at hp
  | case2 acc hemp =>
    intro _ hacc p hp
    rw [slAux, if_neg hemp] at hp
    simp at hp
    exact hp ▸ Or.inr (Or.inr (noBreak_reverse hacc))
  | case3 acc c rest hcond ih =>
    intro hcrlf _ _ _
    exact absurd hcond (noCRLF_not_crlf_head hcrlf)
  | case4 acc c rest hcond hbr ih =>
    intro hcrlf hacc p hp
    rw [slAux, if_neg hcond, if_pos hbr] at hp
    rcases List.mem_cons.1 hp with rfl | hp
    · by_cases hn : c = '\n'
      · exact Or.inl ⟨acc.reverse, noBreak_reverse hacc, by rw [hn]⟩
      · exact Or.inr (Or.inl
          ⟨acc.reverse, c, noBreak_reverse hacc, hbr, hn, rfl⟩)
    · exact ih (noCRLF_tail hcrlf) noBreak_nil p hp
  | case5 acc c rest hcond hbr ih =>
    intro hcrlf hacc p hp
    rw [slAux, if_neg hcond, if_neg hbr] at hp
    refine ih (noCRLF_tail hcrlf) ?_ p hp
    intro x hx
    rcases List.mem_cons.1 hx with rfl | hx
    · revert hbr; cases isLineBreak x <;> simp
    · exact hacc x hx

theorem okPart_splitlines {s : Str} (h : noCRLF s) :
    ∀ p ∈ splitlines s, OkPart p :=
  okPart_slAux s [] h noBreak_nil

/-- `splitlines` loses nothing: the parts concatenate back to the input. -/
theorem concat_slAux :
    ∀ s acc, concatMap (fun p => p) (slAux s acc) = acc.reverse ++ s := by
  intro s acc
  induction s, acc using slAux.induct with
  | case1 acc hemp =>
    have : acc = [] := by
      revert hemp; cases acc <;> simp
    rw [slAux, if_pos hemp, this]
    simp [concatMap]
  | case2 acc hemp =>
    rw [slAux, if_neg hemp]
    simp [concatMap]
  | case3 acc c rest hcond ih =>
    have hrest : rest = '\n' :: rest.tail := by
      cases hr : rest with
      | nil => rw [hr] at hcond; simp at hcond
      | cons x xs =>
        have := hcond.2
        rw [hr] at this
        simp at this
        rw [this]
        simp
    rw [slAux, if_pos hcond]
    simp only [concatMap, ih]
    conv_rhs => rw [hrest]
    simp
  | case4 acc c rest hcond hbr ih =>
    rw [slAux, if_neg hcond, if_pos hbr]
    simp [concatMap, ih]
  | case5 acc c rest hcond hbr ih =>
    rw [slAux, if_neg hcond, if_neg hbr, ih]
    simp

theorem concat_splitlines (s : Str) :
    concatMap (fun p => p) (splitlines s) = s :=
  concat_slAux s []

theorem noBreak_no_nl {s : Str} (h : noBreak s) : '\n' ∉ s := by
  intro hmem
  have := h '\n' hmem
  simp [isLineBreak] at this

theorem stateOK_close {st : SegState} (h : StateOK st) {cur : Line}
    (hcur : ∀ sp ∈ cur, SpanOK sp) : StateOK (st.1 ++ [cur], []) := by
  refine ⟨?_, by intro sp hsp; simp at hsp⟩
  intro l hl
  rcases List.mem_append.1 hl with hl | hl
  · exact h.1 l hl
  · simp at hl
    exact hl ▸ hcur

theorem stateOK_snoc {st : SegState} (h : StateOK st) {sp : Span}
    (hsp : SpanOK sp) : StateOK (st.1, st.2 ++ [sp]) := by
  refine ⟨h.1, ?_⟩
  intro x hx
  rcases List.mem_append.1 hx with hx | hx
  · exact h.2 x hx
  · simp at hx
    exact hx ▸ hsp

/-- `procPart` keeps every emitted span non-empty and LF-free. -/
theorem procPart_stateOK {cat : String} {st : SegState} {p : Str}
    (hshape : PartShape p) (h : StateOK st) : StateOK (procPart cat st p) := by
  unfold procPart
  dsimp only
  rcases hshape with ⟨body, hb, rfl⟩ | ⟨body, hb, rfl⟩ | ⟨body, c, hb, hbr, hcn, rfl⟩ | hnb
  · rw [if_pos (isNLPart_iff.2 (List.getLast?_concat _))]
    rw [rstripRN_append hb (by intro c hc; simp at hc; exact Or.inr hc)]
    by_cases hbody : body = []
    · rw [if_pos hbody]
      exact stateOK_close h h.2
    · rw [if_neg hbody]
      refine stateOK_close h ?_
      intro sp hsp
      rcases List.mem_append.1 hsp with hsp | hsp
      · exact h.2 sp hsp
      · simp at hsp
        exact hsp ▸ ⟨hbody, noBreak_no_nl hb⟩
  · have h2 : body ++ ['\r', '\n'] = (body ++ ['\r']) ++ ['\n'] := by simp
    rw [h2, if_pos (isNLPart_iff.2 (List.getLast?_concat _))]
    rw [List.append_assoc, List.singleton_append,
      rstripRN_append hb (by intro c hc; simp at hc; rcases hc with h | h <;> simp [h])]
    by_cases hbody : body = []
    · rw [if_pos hbody]
      exact stateOK_close h h.2
    · rw [if_neg hbody]
      refine stateOK_close h ?_
      intro sp hsp
      rcases List.mem_append.1 hsp with hsp | hsp
      · exact h.2 sp hsp
      · simp at hsp
        exact hsp ▸ ⟨hbody, noBreak_no_nl hb⟩
  · rw [if_neg (by
      intro hnl
      rw [isNLPart_iff, List.getLast?_concat] at hnl
      exact hcn (by injection hnl))]
    rw [if_neg (by simp)]
    refine stateOK_snoc h ⟨by simp, ?_⟩
    simp only [List.mem_append, List.mem_singleton]
    rintro (hmem | rfl)
    · exact noBreak_no_nl hb hmem
    · exact hcn rfl
  · by_cases hp : p = []
    · rw [hp]
      have : isNLPart ([] : Str) = false := by decide
      rw [this]
      simp
      exact h
    · rw [if_neg (by
        intro hnl
        rw [isNLPart_iff] at hnl
        have : '\n' ∈ p := by
          rcases List.eq_nil_or_concat p with rfl | ⟨l, b, rfl⟩
          · exact absurd hp (by simp)
          · rw [List.concat_eq_append, List.getLast?_concat] at hnl
            simp [List.concat_eq_append]
            right
            injection hnl with hb
            exact hb.symm
        exact noBreak_no_nl hnb this)]
      rw [if_neg hp]
      exact stateOK_snoc h ⟨hp, noBreak_no_nl hnb⟩

theorem foldl_procPart_stateOK {cat : String} {parts : List Str}
    (hshapes : ∀ p ∈ parts, PartShape p) :
    ∀ st, StateOK st → StateOK (parts.foldl (procPart cat) st) := by
  induction parts with
  | nil => intro st h; exact h
  | cons p ps ih =>
    intro st h
    exact ih (fun q hq => hshapes q (by simp [hq]))
      _ (procPart_stateOK (hshapes p (by simp)) h)

theorem procToken_stateOK {st : SegState} {t : Tok} (h : StateOK st) :
    StateOK (procToken st t) :=
  foldl_procPart_stateOK (fun p hp => partShape_splitlines p hp) st h

theorem foldl_procToken_stateOK (toks : List Tok) :
    ∀ st, StateOK st → StateOK (toks.foldl procToken st) := by
  induction toks with
  | nil => intro st h; exact h
  | cons t ts ih => intro st h; exact ih _ (procToken_stateOK h)

theorem rawLines_ok (toks : List Tok) : LinesOK (rawLines toks) := by
  unfold rawLines
  have h := foldl_procToken_stateOK toks ([], [])
    ⟨by intro l hl; simp at hl, by intro sp hsp; simp at hsp⟩
  intro l hl
  rcases List.mem_append.1 hl with hl | hl
  · exact h.1 l hl
  · simp at hl
    exact hl ▸ h.2

theorem segment_ok (toks : List Tok) : LinesOK (segment toks) := by
  unfold segment
  dsimp only
  have hraw := rawLines_ok toks
  by_cases hc : 1 < (rawLines toks).length ∧ (rawLines toks).getLast? = some []
  · rw [if_pos hc]
    split
    · intro l hl sp hsp
      simp at hl
      subst hl
      simp at hsp
    · intro l hl
      exact hraw l ((List.dropLast_sublist _).mem hl)
  · rw [if_neg hc]
    split
    · intro l hl sp hsp
      simp at hl
      subst hl
      simp at hsp
    · exact hraw

theorem joinN_cons {l : Line} {xs : List Line} (h : xs ≠ []) :
    joinN (l :: xs) = lineText l ++ '\n' :: joinN xs := by
  cases xs with
  | nil => exact absurd rfl h
  | cons y ys => rfl

theorem joinN_append_two (done : List Line) (cur l : Line) :
    joinN (done ++ [cur, l]) = joinN (done ++ [cur]) ++ '\n' :: lineText l := by
  induction done with
  | nil => rfl
  | cons d ds ih =>
    rw [List.cons_append, joinN_cons (by simp), List.cons_append,
      joinN_cons (by simp), ih]
    simp

theorem joinN_snoc_span (done : List Line) (cur : Line) (sp : Span) :
    joinN (done ++ [cur ++ [sp]]) = joinN (done ++ [cur]) ++ sp.2 := by
  induction done with
  | nil => simp [joinN, lineText, concatMap_append, concatMap]
  | cons d ds ih =>
    rw [List.cons_append, joinN_cons (by simp), List.cons_append,
      joinN_cons (by simp), ih]
    simp

theorem mem_of_getLast?_eq {l : List α} {a : α} (h : l.getLast? = some a) :
    a ∈ l := by
  rw [List.getLast?_eq_head?_reverse] at h
  rcases hr : l.reverse with _ | ⟨b, bs⟩
  · rw [hr] at h; simp at h
  · rw [hr] at h
    simp at h
    refine List.mem_reverse.1 ?_
    rw [hr, h]
    simp

/-- Processing one CRLF-free part appends exactly that part's text: an
LF terminator turns into the line join, any other terminator rides
inside the appended span verbatim. -/
theorem procPart_join {cat : String} {st : SegState} {p : Str} (h : OkPart p) :
    joinState (procPart cat st p) = joinState st ++ p := by
  obtain ⟨done, cur⟩ := st
  rcases h with ⟨body, hb, rfl⟩ | ⟨body, c, hb, hbr, hcn, rfl⟩ | hnb
  · unfold procPart
    dsimp only
    rw [if_pos (isNLPart_iff.2 (List.getLast?_concat _))]
    rw [rstripRN_append hb (by intro c hc; simp at hc; exact Or.inr hc)]
    by_cases hbody : body = []
    · rw [if_pos hbody]
      subst hbody
      unfold joinState
      have h2 : (done ++ [cur]) ++ [([] : Line)] = done ++ [cur, []] := by simp
      dsimp only
      rw [h2, joinN_append_two]
      simp [lineText, concatMap]
    · rw [if_neg hbody]
      unfold joinState
      dsimp only
      have h2 : (done ++ [cur ++ [(cat, body)]]) ++ [([] : Line)] =
          done ++ [cur ++ [(cat, body)], []] := by simp
      rw [h2, joinN_append_two, joinN_snoc_span]
      simp [lineText, concatMap]
  · unfold procPart
    dsimp only
    rw [if_neg (by
      intro hnl
      rw [isNLPart_iff, List.getLast?_concat] at hnl
      exact hcn (by injection hnl))]
    rw [if_neg (by simp)]
    exact joinN_snoc_span done cur (cat, body ++ [c])
  · by_cases hp : p = []
    · subst hp
      have h1 : isNLPart ([] : Str) = false := by decide
      unfold procPart
      rw [h1]
      simp
    · have h1 : isNLPart p = false := by
        cases hi : isNLPart p
        · rfl
        · exfalso
          have := mem_of_getLast?_eq (isNLPart_iff.1 hi)
          exact noBreak_no_nl hnb this
      unfold procPart
      rw [h1]
      simp only [Bool.false_eq_true, if_false]
      rw [if_neg hp]
      exact joinN_snoc_span done cur (cat, p)

theorem foldl_procPart_join {cat : String} {parts : List Str}
    (h : ∀ p ∈ parts, OkPart p) :
    ∀ st, joinState (parts.foldl (procPart cat) st) =
      joinState st ++ concatMap (fun p => p) parts := by
  induction parts with
  | nil => intro st; simp [concatMap]
  | cons p ps ih =>
    intro st
    rw [List.foldl_cons, ih (fun q hq => h q (by simp [hq])),
      procPart_join (h p (by simp))]
    simp [concatMap]

theorem procToken_join {st : SegState} {t : Tok} (h : noCRLF t.2) :
    joinState (procToken st t) = joinState st ++ expandTabs t.2 := by
  unfold procToken
  rw [foldl_procPart_join (okPart_splitlines (noCRLF_expandTabs h)) st,
    concat_splitlines]

theorem foldl_procToken_join {toks : List Tok}
    (h : ∀ t ∈ toks, noCRLF t.2) :
    ∀ st, joinState (toks.foldl procToken st) =
      joinState st ++ expandTabs (concatTexts toks) := by
  induction toks with
  | nil => intro st; simp [concatTexts, concatMap, expandTabs]
  | cons t ts ih =>
    intro st
    rw [List.foldl_cons, ih (fun u hu => h u (by simp [hu])),
      procToken_join (h t (by simp))]
    have : concatTexts (t :: ts) = t.2 ++ concatTexts ts := rfl
    rw [this, expandTabs_append]
    simp

/-- The raw (pre-discard) lines reproduce the tab-expanded token text
verbatim when no token text contains a CRLF pair. -/
theorem joinN_rawLines {toks : List Tok} (h : ∀ t ∈ toks, noCRLF t.2) :
    joinN (rawLines toks) = expandTabs (concatTexts toks) := by
  unfold rawLines
  dsimp only
  have := foldl_procToken_join h ([], [])
  unfold joinState at this
  rw [this]
  simp [joinN, lineText, concatMap]

theorem getLast?_isSome_of_ne_nil {l : List α} (h : l ≠ []) :
    ∃ a, l.getLast? = some a := by
  rcases List.eq_nil_or_concat l with rfl | ⟨ds, d, rfl⟩
  · exact absurd rfl h
  · exact ⟨d, by rw [List.concat_eq_append, List.getLast?_concat]⟩

theorem lineText_ne_nil {l : Line} (hok : ∀ sp ∈ l, SpanOK sp) (h : l ≠ []) :
    lineText l ≠ [] := by
  cases l with
  | nil => exact absurd rfl h
  | cons sp rest =>
    have h1 : sp.2 ≠ [] := (hok sp (by simp)).1
    unfold lineText concatMap
    intro hemp
    rcases List.append_eq_nil.1 hemp with ⟨h2, _⟩
    exact h1 h2

theorem no_nl_lineText {l : Line} (hok : ∀ sp ∈ l, SpanOK sp) :
    '\n' ∉ lineText l := by
  intro hmem
  rcases mem_concatMap.1 hmem with ⟨sp, hsp, hc⟩
  exact (hok sp hsp).2 hc

/-- With only LF-free non-empty spans, the joined text ends in LF exactly
when at least one line is closed and the open line is empty. -/
theorem getLast?_joinN {done : List Line} {cur : Line}
    (hok : ∀ l ∈ done ++ [cur], ∀ sp ∈ l, SpanOK sp) :
    (joinN (done ++ [cur])).getLast? = some '\n' ↔ (done ≠ [] ∧ cur = []) := by
  by_cases hcur : cur = []
  · subst hcur
    rcases List.eq_nil_or_concat done with rfl | ⟨ds, d, rfl⟩
    · simp [joinN, lineText, concatMap]
    · simp only [List.concat_eq_append] at *
      have h2 : (ds ++ [d]) ++ [([] : Line)] = ds ++ [d, []] := by simp
      rw [h2, joinN_append_two]
      have h3 : lineText ([] : Line) = [] := rfl
      rw [h3]
      constructor
      · intro _
        exact ⟨by simp, by trivial⟩
      · intro _
        have h4 : joinN (ds ++ [d]) ++ '\n' :: ([] : Str) =
            joinN (ds ++ [d]) ++ ['\n'] := rfl
        rw [h4, List.getLast?_concat]
  · have hltne : lineText cur ≠ [] :=
      lineText_ne_nil (hok cur (by simp)) hcur
    have hltnl : '\n' ∉ lineText cur := no_nl_lineText (hok cur (by simp))
    constructor
    · intro hlast
      exfalso
      rcases List.eq_nil_or_concat done with rfl | ⟨ds, d, rfl⟩
      · have : joinN ([] ++ [cur]) = lineText cur := rfl
        rw [this] at hlast
        exact hltnl (mem_of_getLast?_eq hlast)
      · simp only [List.concat_eq_append] at *
        have h2 : (ds ++ [d]) ++ [cur] = ds ++ [d, cur] := by simp
        rw [h2, joinN_append_two] at hlast
        have h3 : ('\n' :: lineText cur) = ['\n'] ++ lineText cur := rfl
        rw [h3, List.getLast?_append, List.getLast?_append] at hlast
        rcases getLast?_isSome_of_ne_nil hltne with ⟨c, hc⟩
        rw [hc] at hlast
        simp at hlast
        exact hltnl (hlast ▸ mem_of_getLast?_eq hc)
    · intro h
      exact absurd h.2 hcur

/-- The raw line list is never empty. -/
theorem rawLines_ne_nil (toks : List Tok) : rawLines toks ≠ [] := by
  unfold rawLines
  simp

/-- The segmenter reproduces the tab-expanded concatenated token text
with exactly one trailing LF removed when the text ends in LF, provided
no token's text contains a CRLF pair. -/
theorem segment_join_eq {toks : List Tok}
    (hgood : ∀ t ∈ toks, noCRLF t.2) :
    joinN (segment toks) = dropOneTrailingNL (expandTabs (concatTexts toks)) := by
  have hjoin : joinN (rawLines toks) = expandTabs (concatTexts toks) :=
    joinN_rawLines hgood
  rw [← hjoin]
  have hok : ∀ l ∈ rawLines toks, ∀ sp ∈ l, SpanOK sp := rawLines_ok toks
  have hraw : rawLines toks =
      (toks.foldl procToken ([], [])).1 ++ [(toks.foldl procToken ([], [])).2] := rfl
  have hlast := @getLast?_joinN (toks.foldl procToken ([], [])).1
    (toks.foldl procToken ([], [])).2 (by rw [← hraw]; exact hok)
  rw [← hraw] at hlast
  unfold segment
  dsimp only
  by_cases hc : 1 < (rawLines toks).length ∧ (rawLines toks).getLast? = some []
  · rw [if_pos hc]
    have hcur : (toks.foldl procToken ([], [])).2 = [] := by
      have h5 := hc.2
      rw [hraw, List.getLast?_concat] at h5
      exact Option.some.inj h5
    have hdne : (toks.foldl procToken ([], [])).1 ≠ [] := by
      intro hnil
      have := hc.1
      rw [hraw, hnil] at this
      simp at this
    have hnl : (joinN (rawLines toks)).getLast? = some '\n' :=
      hlast.2 ⟨hdne, hcur⟩
    have hdrop : (rawLines toks).dropLast = (toks.foldl procToken ([], [])).1 := by
      rw [hraw, List.dropLast_concat]
    rw [hdrop, if_neg hdne]
    unfold dropOneTrailingNL
    rw [if_pos (endsWithS_single.2 hnl)]
    rcases List.eq_nil_or_concat (toks.foldl procToken ([], [])).1 with hnil | ⟨ds, d, hds⟩
    · exact absurd hnil hdne
    · rw [List.concat_eq_append] at hds
      have h2 : rawLines toks = ds ++ [d, []] := by
        rw [hraw, hds, hcur]
        simp
      rw [h2, joinN_append_two]
      have h3 : lineText ([] : Line) = [] := rfl
      rw [h3]
      have h4 : joinN (ds ++ [d]) ++ '\n' :: ([] : Str) =
          joinN (ds ++ [d]) ++ ['\n'] := rfl
      rw [h4, List.dropLast_concat, hds]
  · rw [if_neg hc]
    rw [if_neg (rawLines_ne_nil toks)]
    have hnl : ¬(joinN (rawLines toks)).getLast? = some '\n' := by
      intro h
      rcases hlast.1 h with ⟨hdne, hcur⟩
      apply hc
      constructor
      · rw [hraw, List.length_append]
        rcases List.eq_nil_or_concat (toks.foldl procToken ([], [])).1 with hnil | ⟨ds, d, hds⟩
        · exact absurd hnil hdne
        · rw [hds]
          simp
      · rw [hraw, List.getLast?_concat, hcur]
    unfold dropOneTrailingNL
    rw [if_neg (fun h => hnl (endsWithS_single.1 h))]

theorem slAux_noBreak :
    ∀ s acc, noBreak s → slAux s acc =
      if (acc.reverse ++ s).isEmpty then [] else [acc.reverse ++ s] := by
  intro s acc
  induction s, acc using slAux.induct with
  | case1 acc hemp =>
    intro _
    have hnil : acc = [] := by
      revert hemp; cases acc <;> simp
    rw [slAux, if_pos hemp, hnil]
    simp
  | case2 acc hemp =>
    intro _
    have hne : acc.reverse.isEmpty = false := by
      revert hemp; cases acc <;> simp
    rw [slAux, if_neg hemp]
    simp only [List.append_nil, hne, Bool.false_eq_true, if_false]
  | case3 acc c rest hcond ih =>
    intro hnb
    have := hnb c (by simp)
    rw [hcond.1] at this
    exact absurd this (by decide)
  | case4 acc c rest hcond hbr ih =>
    intro hnb
    have := hnb c (by simp)
    rw [hbr] at this
    exact absurd this (by simp)
  | case5 acc c rest hcond hbr ih =>
    intro hnb
    rw [slAux, if_neg hcond, if_neg hbr]
    rw [ih (fun x hx => hnb x (by simp [hx]))]
    simp [List.reverse_cons, List.append_assoc]

theorem splitlines_noBreak {s : Str} (h : noBreak s) :
    splitlines s = if s.isEmpty then [] else [s] := by
  unfold splitlines
  rw [slAux_noBreak s [] h]
  simp

theorem isNLPart_false_of_noBreak {p : Str} (h : noBreak p) :
    isNLPart p = false := by
  cases hi : isNLPart p
  · rfl
  · exact absurd (mem_of_getLast?_eq (isNLPart_iff.1 hi)) (noBreak_no_nl h)

theorem procToken_noBreak {st : SegState} {t : Tok} (h : noBreak t.2) :
    procToken st t = (st.1, st.2 ++ (deriveSpan t).toList) := by
  unfold procToken deriveSpan
  rw [splitlines_noBreak (noBreak_expandTabs h)]
  by_cases he : expandTabs t.2 = []
  · rw [he]
    simp
  · have hne : (expandTabs t.2).isEmpty = false := by
      revert he; cases expandTabs t.2 <;> simp
    simp only [hne, Bool.false_eq_true, if_false, if_neg he]
    rw [List.foldl_cons, List.foldl_nil]
    unfold procPart
    have hnl : isNLPart (expandTabs t.2) = false :=
      isNLPart_false_of_noBreak (noBreak_expandTabs h)
    rw [hnl]
    simp only [Bool.false_eq_true, if_false]
    rw [if_neg he]
    simp

theorem foldl_procToken_noBreak {toks : List Tok}
    (h : ∀ t ∈ toks, noBreak t.2) :
    ∀ st, toks.foldl procToken st = (st.1, st.2 ++ toks.filterMap deriveSpan) := by
  induction toks with
  | nil => intro st; simp
  | cons t ts ih =>
    intro st
    rw [List.foldl_cons, procToken_noBreak (h t (by simp)),
      ih (fun u hu => h u (by simp [hu]))]
    rw [List.filterMap_cons]
    cases hd : deriveSpan t <;> simp [List.append_assoc]

/-- C1 (counterexample): for the input text `"a\x5cr\x5cnb"` tokenized as a
single Text token, the segmenter's lines join to `"a\x5cnb"`: the CR of the
CRLF terminator is lost, so the joined text equals neither the
tab-expanded original nor the original with one trailing newline
removed. -/
theorem c1_counterexample :
    concatTexts [(("Text" : String), ['a', '\r', '\n', 'b'])] =
      ['a', '\r', '\n', 'b'] ∧
    joinN (segment [(("Text" : String), ['a', '\r', '\n', 'b'])]) ≠
      expandTabs ['a', '\r', '\n', 'b'] ∧
    joinN (segment [(("Text" : String), ['a', '\r', '\n', 'b'])]) ≠
      dropOneTrailingNL (expandTabs ['a', '\r', '\n', 'b']) := by
  have hseg : segment [(("Text" : String), ['a', '\r', '\n', 'b'])] =
      [[(("Text" : String), ['a'])], [(("Text" : String), ['b'])]] := by
    simp [segment, rawLines, procToken, splitlines, slAux, isLineBreak,
      expandTabs, concatMap, procPart, isNLPart, endsWithS, listPre, rstripRN]
  refine ⟨rfl, ?_, ?_⟩ <;> rw [hseg] <;>
    simp [joinN, lineText, concatMap, expandTabs, dropOneTrailingNL,
      endsWithS, listPre]

/-- C1 (amended): for every token stream in which no token's text
contains the two-character CRLF pair, concatenating the span texts
within each line and joining the lines with a single newline equals the
tab-expanded concatenated text with one trailing newline removed when
it has one.  Lone CR and every other non-LF line boundary ride inside
spans verbatim and are reproduced; only a CRLF inside a single token
loses its CR. -/
theorem c1_join_reproduces_text (toks : List Tok) (text : Str)
    (hconcat : concatTexts toks = text)
    (hnocrlf : ∀ t ∈ toks, noCRLF t.2) :
    joinN (segment toks) = dropOneTrailingNL (expandTabs text) := by
  subst hconcat
  exact segment_join_eq hnocrlf

/-- Witness for the amended C1 at the token stream of `"a\x5crb\x5cnc\x5cn"`:
the lone CR is kept verbatim inside a span and exactly the one trailing
LF is removed. -/
theorem c1_witness :
    concatTexts [(("Text" : String), ['a', '\r', 'b', '\n', 'c', '\n'])] =
      ['a', '\r', 'b', '\n', 'c', '\n'] ∧
    (∀ t ∈ [(("Text" : String), ['a', '\r', 'b', '\n', 'c', '\n'])],
      noCRLF t.2) ∧
    joinN (segment [(("Text" : String), ['a', '\r', 'b', '\n', 'c', '\n'])]) =
      dropOneTrailingNL (expandTabs ['a', '\r', 'b', '\n', 'c', '\n']) :=
  ⟨rfl, by decide, c1_join_reproduces_text _ _ rfl (by decide)⟩

/-- C2: every span of every line produced by the segmenter has a text
containing no newline character. -/
theorem c2_spans_newline_free (toks : List Tok) :
    ∀ line ∈ segment toks, ∀ sp ∈ line, '\n' ∉ sp.2 := by
  intro line hl sp hsp
  exact (segment_ok toks line hl sp hsp).2

/-- Witness for C2 at a concrete token stream with an embedded newline. -/
theorem c2_witness : '\n' ∉ [('i' : Char), 'f'] := by
  have hseg : segment [(("Keyword" : String), ['i', 'f', '\n'])] =
      [[(("Keyword" : String), ['i', 'f'])]] := by
    simp [segment, rawLines, procToken, splitlines, slAux, isLineBreak,
      expandTabs, concatMap, procPart, isNLPart, endsWithS, listPre, rstripRN]
  exact c2_spans_newline_free [(("Keyword" : String), ['i', 'f', '\n'])]
    [(("Keyword" : String), ['i', 'f'])] (by rw [hseg]; simp)
    (("Keyword" : String), ['i', 'f']) (by simp)

/-- C4: a token stream with no line-break character in any token text
yields exactly one line, holding the derived spans (one per token with
non-empty tab-expanded text) in token order. -/
theorem c4_single_line (toks : List Tok) (h : ∀ t ∈ toks, noBreak t.2) :
    segment toks = [toks.filterMap deriveSpan] ∧ (segment toks).length = 1 := by
  have hfold := foldl_procToken_noBreak h ([], [])
  have hraw : rawLines toks = [toks.filterMap deriveSpan] := by
    unfold rawLines
    dsimp only
    rw [hfold]
    simp
  have hseg : segment toks = [toks.filterMap deriveSpan] := by
    unfold segment
    dsimp only
    rw [hraw]
    rw [if_neg (by simp)]
    rw [if_neg (by simp)]
  exact ⟨hseg, by rw [hseg]; rfl⟩

/-- Witness for C4 at a two-token break-free stream. -/
theorem c4_witness :
    (∀ t ∈ [(("Keyword" : String), ['i', 'f']), (("Text" : String), [' ', 'x'])],
      noBreak t.2) ∧
    segment [(("Keyword" : String), ['i', 'f']), (("Text" : String), [' ', 'x'])] =
      [[(("Keyword" : String), ['i', 'f']), (("Text" : String), [' ', 'x'])]] := by
  refine ⟨by decide, ?_⟩
  have h := (c4_single_line
    [(("Keyword" : String), ['i', 'f']), (("Text" : String), [' ', 'x'])]
    (by decide)).1
  rw [h]
  rfl

/-- C5 (counterexample): a token whose text is the single line-ending
marker CR does not close the current line; instead a span holding the CR
is appended to the still-open line. -/
theorem c5_counterexample :
    isLineBreak '\r' = true ∧
    procToken (([], []) : SegState) (("Text" : String), ['\r']) =
      (([], [(("Text" : String), ['\r'])]) : SegState) ∧
    procToken (([], []) : SegState) (("Text" : String), ['\r']) ≠
      (([[]], []) : SegState) ∧
    segment [(("Text" : String), ['\r'])] = [[(("Text" : String), ['\r'])]] := by
  refine ⟨by decide, ?_, ?_, ?_⟩ <;>
    simp [segment, rawLines, procToken, splitlines, slAux, isLineBreak,
      expandTabs, concatMap, procPart, isNLPart, endsWithS, listPre, rstripRN]

/-- C5 (amended): a token whose text is exactly the marker LF or CRLF
closes the current line and opens a new one, appending no span to either
line, at any point of the stream. -/
theorem c5_marker_closes_line (cat : String) (done : List Line) (cur : Line)
    (m : Str) (h : m = ['\n'] ∨ m = ['\r', '\n']) :
    procToken (done, cur) (cat, m) = (done ++ [cur], []) := by
  rcases h with rfl | rfl
  · have h1 : splitlines (expandTabs ['\n']) = [['\n']] := by
      simp [splitlines, slAux, expandTabs, concatMap, isLineBreak]
    unfold procToken
    dsimp only
    rw [h1, List.foldl_cons, List.foldl_nil]
    simp [procPart, isNLPart, endsWithS, listPre, rstripRN]
  · have h1 : splitlines (expandTabs ['\r', '\n']) = [['\r', '\n']] := by
      simp [splitlines, slAux, expandTabs, concatMap, isLineBreak]
    unfold procToken
    dsimp only
    rw [h1, List.foldl_cons, List.foldl_nil]
    simp [procPart, isNLPart, endsWithS, listPre, rstripRN]

/-- Witness for the amended C5 at a mid-stream state. -/
theorem c5_witness :
    ((['\n'] : Str) = ['\n'] ∨ (['\n'] : Str) = ['\r', '\n']) ∧
    procToken (([[(("K" : String), ['x'])]], [(("K" : String), ['y'])]) : SegState)
      (("T" : String), ['\n']) =
      ([[(("K" : String), ['x'])], [(("K" : String), ['y'])]], []) :=
  ⟨Or.inl rfl, c5_marker_closes_line "T" [[(("K" : String), ['x'])]]
    [(("K" : String), ['y'])] ['\n'] (Or.inl rfl)⟩

/-- C6: the segmenter's result is never empty; the final open line is
discarded exactly when more than one line was produced and it is empty;
the empty stream yields exactly one empty line. -/
theorem c6_trailing_line_policy (toks : List Tok) :
    segment toks ≠ [] ∧
    segment toks =
      (if 1 < (rawLines toks).length ∧ (rawLines toks).getLast? = some []
        then (rawLines toks).dropLast else rawLines toks) ∧
    segment ([] : List Tok) = [[]] := by
  have hL2 : (if 1 < (rawLines toks).length ∧ (rawLines toks).getLast? = some []
      then (rawLines toks).dropLast else rawLines toks) ≠ [] := by
    by_cases hc : 1 < (rawLines toks).length ∧ (rawLines toks).getLast? = some []
    · rw [if_pos hc]
      intro hnil
      have hlen := congrArg List.length hnil
      rw [List.length_dropLast] at hlen
      simp at hlen
      have := hc.1
      omega
    · rw [if_neg hc]
      exact rawLines_ne_nil toks
  refine ⟨?_, ?_, ?_⟩
  · unfold segment
    dsimp only
    rw [if_neg hL2]
    exact hL2
  · unfold segment
    dsimp only
    rw [if_neg hL2]
  · have hraw : rawLines ([] : List Tok) = [[]] := rfl
    unfold segment
    dsimp only
    rw [hraw]
    rw [if_neg (by simp)]
    rw [if_neg (by simp)]

/-- C3: `token_color` is total and implements the specified lookup
policy: priority sub-tags (cli.py line 59 order) first, then the first
table entry whose key occurs in the category string in table order, then
the default plain-text color; no input errors. -/
theorem c3_token_color_policy (s : Str) :
    tokenColor s = tokenColorSpec s := by
  unfold tokenColor tokenColorSpec priorityKeys
  have h1 : (lookupTCM ("Name.Function".toList)).isSome = true := by decide
  have h2 : (lookupTCM ("Name.Class".toList)).isSome = true := by decide
  have h3 : (lookupTCM ("Name.Builtin".toList)).isSome = true := by decide
  have h4 : (lookupTCM ("Text".toList)).getD [] = "a9b7c6".toList := by decide
  rw [h4]
  simp only [List.find?, h1, h2, h3, Bool.and_true]

theorem contains_iff_mem {l : List Nat} {a : Nat} :
    l.contains a = true ↔ a ∈ l := List.elem_iff

/-- C7: a file is classified binary exactly when a zero byte occurs in
the first 1024 bytes; binary files get the placeholder notice instead of
tokenization; a zero byte only after the probe window does not trigger
the binary classification. -/
theorem c7_binary_probe (bytes : List Nat) (content : Str)
    (style : Except Unit (List Line)) :
    (is_text_file bytes = false ↔ 0 ∈ bytes.take 1024) ∧
    (0 ∈ bytes.take 1024 →
      renderFile ⟨bytes, content, style⟩ = FileBlock.binaryNotice) ∧
    (0 ∉ bytes.take 1024 →
      renderFile ⟨bytes, content, style⟩ ≠ FileBlock.binaryNotice) := by
  have hiff : is_text_file bytes = false ↔ 0 ∈ bytes.take 1024 := by
    unfold is_text_file
    cases hx : (bytes.take 1024).contains 0 with
    | false =>
      simp only [Bool.not_false]
      constructor
      · intro h
        simp at h
      · intro hmem
        have := contains_iff_mem.2 hmem
        rw [hx] at this
        simp at this
    | true =>
      simp only [Bool.not_true]
      exact ⟨fun _ => contains_iff_mem.1 hx, fun _ => by trivial⟩
  refine ⟨hiff, ?_, ?_⟩
  · intro h
    unfold renderFile
    rw [if_neg (by rw [hiff.2 h]; simp)]
  · intro h
    have htext : is_text_file bytes = true := by
      cases hx : is_text_file bytes
      · exact absurd (hiff.1 hx) h
      · rfl
    unfold renderFile
    rw [if_pos htext]
    cases style <;> simp

/-- Witness for C7: a zero byte at offset 1024 (just past the probe) does
not make the file binary, while a lone zero byte inside the window does. -/
theorem c7_witness :
    (0 : Nat) ∉ (List.replicate 1024 (1 : Nat) ++ [0]).take 1024 ∧
    renderFile ⟨List.replicate 1024 1 ++ [0], [], Except.ok []⟩ ≠
      FileBlock.binaryNotice ∧
    (0 : Nat) ∈ ([0] : List Nat).take 1024 ∧
    renderFile ⟨[0], [], Except.ok []⟩ = FileBlock.binaryNotice := by
  have htake : (List.replicate 1024 (1 : Nat) ++ [0]).take 1024 =
      List.replicate 1024 1 := by
    rw [List.take_left' (by rw [List.length_replicate])]
  have hmem : (0 : Nat) ∉ (List.replicate 1024 (1 : Nat) ++ [0]).take 1024 := by
    rw [htake]
    intro hm
    have := List.eq_of_mem_replicate hm
    simp at this
  have hmem2 : (0 : Nat) ∈ ([0] : List Nat).take 1024 := by decide
  exact ⟨hmem,
    (c7_binary_probe (List.replicate 1024 1 ++ [0]) [] (Except.ok [])).2.2 hmem,
    hmem2,
    (c7_binary_probe [0] [] (Except.ok [])).2.1 hmem2⟩

/-- C8: a text file whose styling attempt fails is emitted as a raw
unstyled block, and the remaining files are processed exactly as they
would be otherwise: one file's styling failure never aborts the run. -/
theorem c8_style_fallback (pre post : List FileEntry) (f : FileEntry)
    (htext : is_text_file f.bytes = true) (hfail : f.style = Except.error ()) :
    processFiles (pre ++ f :: post) =
      processFiles pre ++ FileBlock.rawBlock f.content :: processFiles post := by
  unfold processFiles
  rw [List.map_append, List.map_cons]
  have hf : renderFile f = FileBlock.rawBlock f.content := by
    unfold renderFile
    rw [if_pos htext, hfail]
  rw [hf]

/-- Witness for C8: the failing middle file falls back to its raw content
while its neighbours are still rendered. -/
theorem c8_witness :
    is_text_file ([] : List Nat) = true ∧
    processFiles [⟨[0], [], Except.ok []⟩, ⟨[], ['a'], Except.error ()⟩,
        ⟨[], ['x'], Except.ok [[]]⟩] =
      [FileBlock.binaryNotice, FileBlock.rawBlock ['a'],
        FileBlock.styledBlock [[]]] := by
  refine ⟨by decide, ?_⟩
  have h := c8_style_fallback [⟨[0], [], Except.ok []⟩]
    [⟨[], ['x'], Except.ok [[]]⟩] ⟨[], ['a'], Except.error ()⟩ (by decide) rfl
  have heq : ([⟨[0], [], Except.ok []⟩] : List FileEntry) ++
      (⟨[], ['a'], Except.error ()⟩ : FileEntry) ::
        ([⟨[], ['x'], Except.ok [[]]⟩] : List FileEntry) =
      [⟨[0], [], Except.ok []⟩, ⟨[], ['a'], Except.error ()⟩,
        ⟨[], ['x'], Except.ok [[]]⟩] := rfl
  rw [heq] at h
  rw [h]
  rfl

/-- C9: an empty image list yields the explanatory line; a non-empty one
yields a grid whose row count is the least m with n ≤ 2m (the ceiling of
n/2) and whose cells place image i at row i / 2, column i % 2 in
row-major order; with 3 images the second row has cell (1,0) populated
and cell (1,1) empty. -/
theorem c9_gallery_layout (images : List Str) :
    (images = [] → add_screenshots_section images = Gallery.noImages) ∧
    (images ≠ [] → add_screenshots_section images =
      Gallery.grid (numRowsG images.length) (gridCells images)) ∧
    (images.length ≤ 2 * numRowsG images.length ∧
      2 * numRowsG images.length ≤ images.length + 1) ∧
    (∀ i, i < images.length →
      (gridCells images)[i]? = images[i]?.map (fun nm => (i / 2, i % 2, nm))) ∧
    (images.length = 3 → numRowsG images.length = 2 ∧
      cellOccupied (gridCells images) 1 0 = true ∧
      cellOccupied (gridCells images) 1 1 = false) := by
  refine ⟨?_, ?_, ?_, ?_, ?_⟩
  · intro h
    unfold add_screenshots_section
    rw [if_pos h]
  · intro h
    unfold add_screenshots_section
    rw [if_neg h]
  · unfold numRowsG
    omega
  · intro i hi
    unfold gridCells
    rw [List.getElem?_map, List.getElem?_enum]
    cases hx : images[i]? <;> simp
  · intro h3
    match images, h3 with
    | [a, b, c], _ =>
      refine ⟨by simp [numRowsG], ?_, ?_⟩ <;>
        simp [gridCells, cellOccupied, List.enum, List.enumFrom]

/-- Witness for C9 at a three-image folder. -/
theorem c9_witness :
    (["x1".toList, "x2".toList, "x3".toList] : List Str) ≠ [] ∧
    add_screenshots_section ["x1".toList, "x2".toList, "x3".toList] =
      Gallery.grid 2
        [(0, 0, "x1".toList), (0, 1, "x2".toList), (1, 0, "x3".toList)] ∧
    cellOccupied (gridCells ["x1".toList, "x2".toList, "x3".toList]) 1 1 =
      false := by
  have h := c9_gallery_layout ["x1".toList, "x2".toList, "x3".toList]
  refine ⟨by simp, ?_, (h.2.2.2.2 rfl).2.2⟩
  have h2 := h.2.1 (by simp)
  rw [h2]
  rfl

theorem lexLe_total (a b : Str) : lexLe a b = true ∨ lexLe b a = true := by
  induction a generalizing b with
  | nil => exact Or.inl rfl
  | cons c cs ih =>
    cases b with
    | nil => exact Or.inr rfl
    | cons d ds =>
      by_cases hcd : c = d
      · subst hcd
        rcases ih ds with h | h
        · left
          unfold lexLe
          rw [if_pos rfl]
          exact h
        · right
          unfold lexLe
          rw [if_pos rfl]
          exact h
      · rcases Nat.lt_trichotomy c.toNat d.toNat with h | h | h
        · left
          unfold lexLe
          rw [if_neg hcd]
          simp [h]
        · exact absurd (Char.ext (UInt32.ext h)) hcd
        · right
          unfold lexLe
          rw [if_neg (fun he => hcd he.symm)]
          simp [h]

theorem lexLe_trans {a b c : Str} (hab : lexLe a b = true)
    (hbc : lexLe b c = true) : lexLe a c = true := by
  induction a generalizing b c with
  | nil => rfl
  | cons x xs ih =>
    cases b with
    | nil => simp [lexLe] at hab
    | cons y ys =>
      cases c with
      | nil => simp [lexLe] at hbc
      | cons z zs =>
        unfold lexLe at hab hbc ⊢
        by_cases hxy : x = y
        · subst hxy
          rw [if_pos rfl] at hab
          by_cases hxz : x = z
          · subst hxz
            rw [if_pos rfl] at hbc ⊢
            exact ih hab hbc
          · rw [if_neg hxz] at hbc ⊢
            exact hbc
        · rw [if_neg hxy] at hab
          have hxylt : x.toNat < y.toNat := by simpa using hab
          by_cases hyz : y = z
          · subst hyz
            rw [if_neg hxy]
            simpa using hxylt
          · rw [if_neg hyz] at hbc
            have hyzlt : y.toNat < z.toNat := by simpa using hbc
            have hxz : x.toNat < z.toNat := Nat.lt_trans hxylt hyzlt
            rw [if_neg (by
              intro he
              rw [he] at hxz
              exact absurd hxz (lt_irrefl _))]
            simpa using hxz

theorem mem_insLe {x y : Str × Bool} {l : List (Str × Bool)} :
    y ∈ insLe x l ↔ y = x ∨ y ∈ l := by
  induction l with
  | nil => simp [insLe]
  | cons z zs ih =>
    unfold insLe
    by_cases h : lexLe x.1 z.1 = true
    · rw [if_pos h]
      simp
    · rw [if_neg h]
      simp [ih]
      tauto

theorem mem_sortEntries {e : Str × Bool} {l : List (Str × Bool)} :
    e ∈ sortEntries l ↔ e ∈ l := by
  induction l with
  | nil => simp [sortEntries]
  | cons x xs ih => simp [sortEntries, mem_insLe, ih]

theorem pairwise_insLe {x : Str × Bool} {l : List (Str × Bool)}
    (h : l.Pairwise (fun a b => lexLe a.1 b.1 = true)) :
    (insLe x l).Pairwise (fun a b => lexLe a.1 b.1 = true) := by
  induction l with
  | nil => simp [insLe]
  | cons y ys ih =>
    unfold insLe
    by_cases hxy : lexLe x.1 y.1 = true
    · rw [if_pos hxy]
      refine List.Pairwise.cons ?_ h
      intro z hz
      rcases List.mem_cons.1 hz with rfl | hz
      · exact hxy
      · exact lexLe_trans hxy ((List.pairwise_cons.1 h).1 z hz)
    · rw [if_neg hxy]
      have hyx : lexLe y.1 x.1 = true := by
        rcases lexLe_total x.1 y.1 with h1 | h1
        · exact absurd h1 hxy
        · exact h1
      refine List.Pairwise.cons ?_ (ih (List.pairwise_cons.1 h).2)
      intro z hz
      rcases mem_insLe.1 hz with rfl | hz
      · exact hyx
      · exact (List.pairwise_cons.1 h).1 z hz

theorem pairwise_sortEntries (l : List (Str × Bool)) :
    (sortEntries l).Pairwise (fun a b => lexLe a.1 b.1 = true) := by
  induction l with
  | nil => exact List.Pairwise.nil
  | cons x xs ih => exact pairwise_insLe ih

/-- C10: every entry whose name starts with a dot or ends
case-insensitively in .docx is excluded both from code processing and
from the gallery; the remaining entries are processed in code-point
lexicographic name order; every kept file goes to exactly one of the two
pipelines according to its extension. -/
theorem c10_entry_filtering (entries : List (Str × Bool)) (name : Str) :
    ((hiddenName name || endsWithDocx name) = true →
      name ∉ codeFiles entries ∧ name ∉ galleryFiles entries) ∧
    (codeFiles entries).Pairwise (fun a b => lexLe a b = true) ∧
    (galleryFiles entries).Pairwise (fun a b => lexLe a b = true) ∧
    (∀ e ∈ entries, e.2 = true → hiddenName e.1 = false →
      endsWithDocx e.1 = false →
      (is_image_file e.1 = true →
        e.1 ∈ galleryFiles entries ∧ e.1 ∉ codeFiles entries) ∧
      (is_image_file e.1 = false → e.1 ∈ codeFiles entries)) := by
  refine ⟨?_, ?_, ?_, ?_⟩
  · intro hskip
    constructor
    · intro hmem
      unfold codeFiles at hmem
      rcases List.mem_map.1 hmem with ⟨e, he, heq⟩
      have hf := (List.mem_filter.1 he).2
      simp only [Bool.and_eq_true, Bool.not_eq_true'] at hf
      rcases hf with ⟨⟨⟨hh, hd⟩, _⟩, _⟩
      rw [← heq, hh, hd] at hskip
      simp at hskip
    · intro hmem
      unfold galleryFiles at hmem
      rcases List.mem_map.1 hmem with ⟨e, he, heq⟩
      have hf := (List.mem_filter.1 he).2
      simp only [Bool.and_eq_true, Bool.not_eq_true'] at hf
      rcases hf with ⟨⟨⟨hh, hd⟩, _⟩, _⟩
      rw [← heq, hh, hd] at hskip
      simp at hskip
  · unfold codeFiles
    rw [List.pairwise_map]
    exact (pairwise_sortEntries entries).filter _
  · unfold galleryFiles
    rw [List.pairwise_map]
    exact (pairwise_sortEntries entries).filter _
  · intro e he hfile hh hd
    constructor
    · intro himg
      constructor
      · unfold galleryFiles
        refine List.mem_map.2 ⟨e, List.mem_filter.2 ⟨mem_sortEntries.2 he, ?_⟩, rfl⟩
        rw [hh, hd, hfile, himg]
        rfl
      · intro hmem
        unfold codeFiles at hmem
        rcases List.mem_map.1 hmem with ⟨e2, he2, heq⟩
        have hf := (List.mem_filter.1 he2).2
        simp only [Bool.and_eq_true, Bool.not_eq_true'] at hf
        rcases hf with ⟨⟨⟨_, _⟩, himg2⟩, _⟩
        rw [heq, himg] at himg2
        simp at himg2
    · intro himg
      unfold codeFiles
      refine List.mem_map.2 ⟨e, List.mem_filter.2 ⟨mem_sortEntries.2 he, ?_⟩, rfl⟩
      rw [hh, hd, hfile, himg]
      rfl

/-- Witness for C10 on a concrete directory listing: a hidden name and a
differently-named .docx file are excluded from both pipelines, an image
goes only to the gallery, a source file only to the code list. -/
theorem c10_witness :
    (hiddenName (".git".toList) || endsWithDocx (".git".toList)) = true ∧
    (hiddenName ("Other.DOCX".toList) || endsWithDocx ("Other.DOCX".toList)) = true ∧
    ".git".toList ∉ codeFiles
      [("b.py".toList, true), (".git".toList, true), ("Other.DOCX".toList, true),
        ("a.png".toList, true), ("sub".toList, false)] ∧
    "Other.DOCX".toList ∉ codeFiles
      [("b.py".toList, true), (".git".toList, true), ("Other.DOCX".toList, true),
        ("a.png".toList, true), ("sub".toList, false)] ∧
    "Other.DOCX".toList ∉ galleryFiles
      [("b.py".toList, true), (".git".toList, true), ("Other.DOCX".toList, true),
        ("a.png".toList, true), ("sub".toList, false)] ∧
    "a.png".toList ∈ galleryFiles
      [("b.py".toList, true), (".git".toList, true), ("Other.DOCX".toList, true),
        ("a.png".toList, true), ("sub".toList, false)] ∧
    "b.py".toList ∈ codeFiles
      [("b.py".toList, true), (".git".toList, true), ("Other.DOCX".toList, true),
        ("a.png".toList, true), ("sub".toList, false)] :=
  ⟨by decide, by decide,
    ((c10_entry_filtering
      [("b.py".toList, true), (".git".toList, true), ("Other.DOCX".toList, true),
        ("a.png".toList, true), ("sub".toList, false)] (".git".toList)).1
      (by decide)).1,
    ((c10_entry_filtering
      [("b.py".toList, true), (".git".toList, true), ("Other.DOCX".toList, true),
        ("a.png".toList, true), ("sub".toList, false)] ("Other.DOCX".toList)).1
      (by decide)).1,
    ((c10_entry_filtering
      [("b.py".toList, true), (".git".toList, true), ("Other.DOCX".toList, true),
        ("a.png".toList, true), ("sub".toList, false)] ("Other.DOCX".toList)).1
      (by decide)).2,
    (((c10_entry_filtering
      [("b.py".toList, true), (".git".toList, true), ("Other.DOCX".toList, true),
        ("a.png".toList, true), ("sub".toList, false)] (".git".toList)).2.2.2
      ("a.png".toList, true) (by decide) rfl (by decide) (by decide)).1
      (by decide)).1,
    ((c10_entry_filtering
      [("b.py".toList, true), (".git".toList, true), ("Other.DOCX".toList, true),
        ("a.png".toList, true), ("sub".toList, false)] (".git".toList)).2.2.2
      ("b.py".toList, true) (by decide) rfl (by decide) (by decide)).2
      (by decide)⟩

end Code2Docx
